import Mathlib

/-!
Verification development for `resume_builder.py`.

The program has two logical pieces:

* `parse_obsidian_vault`: a breadth-first traversal over a work queue of
  wiki-style `[[link]]` identifiers, starting from the master note's path.
  Each popped identifier is normalized to a canonical document name
  (basename with the `.md` extension appended when absent), skipped when
  already visited, resolved by a name search over the `os.walk` listing of
  the master note's directory with a fallback to the identifier interpreted
  as a path relative to that directory, and on a successful read its content
  (with a header naming the found file) is appended to the aggregate corpus
  while its links are appended to the back of the queue.

* `generate_resume_suggestions`: one POST request; transport failures,
  4xx/5xx statuses and malformed response bodies are all converted into
  descriptive strings returned in place of the suggestion text.

The embedding models the filesystem as a value `FS`: the `os.walk` listing
of the base directory (a list of directory/file-list pairs in walk order),
the set of existing paths (for `os.path.exists`), and a read function
returning `none` when `open`/`read` raises.  The traversal loop is written
with an explicit fuel argument; `fuelMeasure` computes a fuel bound that is
proved sufficient, so the partial-looking loop is in fact total.
-/

namespace ResumeBuilder

/-- Character test used by the path helpers: not the path separator. -/
def notSlash (c : Char) : Bool := decide (c ≠ '/')

/-- List-of-characters core of `os.path.basename`: the suffix after the last
separator. -/
def basenameL (l : List Char) : List Char :=
  ((l.reverse).takeWhile notSlash).reverse

/-- Model of `os.path.basename` for POSIX paths. -/
def basename (s : String) : String := String.mk (basenameL s.data)

/-- List-of-characters core of `os.path.dirname`: everything before the last
separator, with trailing separators stripped unless the head is all
separators (so that the dirname of "/a" is "/"). -/
def dirnameL (l : List Char) : List Char :=
  let r := (l.reverse).dropWhile notSlash
  let s := r.dropWhile (fun c => decide (c = '/'))
  match s with
  | [] => r.reverse
  | _ => s.reverse

/-- Model of `os.path.dirname` for POSIX paths. -/
def dirname (s : String) : String := String.mk (dirnameL s.data)

/-- List-of-characters test for `.endswith(".md")`. -/
def endsWithMdL (l : List Char) : Bool :=
  match l.reverse with
  | 'd' :: 'm' :: '.' :: _ => true
  | _ => false

/-- Model of `s.endswith(".md")`. -/
def endsWithMd (s : String) : Bool := endsWithMdL s.data

/-- Whether a path starts with the separator (an absolute POSIX path). -/
def startsWithSlash (s : String) : Bool :=
  match s.data with
  | '/' :: _ => true
  | _ => false

/-- Whether a path ends with the separator. -/
def endsWithSlash (s : String) : Bool :=
  match s.data.reverse with
  | '/' :: _ => true
  | _ => false

/-- Model of `os.path.join` for POSIX paths and two arguments: an absolute
second component discards the first, a separator is inserted only when the
first component does not already end with one, and an empty first component
yields the second unchanged. -/
def pathJoin (a b : String) : String :=
  if a = "" then b
  else if startsWithSlash b then b
  else if endsWithSlash a then a ++ b
  else a ++ "/" ++ b

/-- Lines 34-37 of the source: normalization of a popped link to a canonical
document name.  `basename` of the link, with ".md" appended when the link
does not already end with it. -/
def canonicalName (link : String) : String :=
  if endsWithMd link then basename link else basename link ++ ".md"

/-! ### The `[[link]]` scanner, modelling `re.findall(r'\[\[(.*?)\]\]', content)`

The regex engine scans left to right; at a position starting with two open
brackets it matches the shortest run of non-newline characters followed by
two close brackets, emits the enclosed text, and resumes after the match;
otherwise it advances one character. -/

/-- Non-greedy body scan: consume characters (never a newline) until the
first "]]", returning the enclosed text and the rest of the input. -/
def linkBody : List Char → List Char → Option (String × List Char)
  | ']' :: ']' :: rest, acc => some (String.mk acc.reverse, rest)
  | '\n' :: _, _ => none
  | c :: rest, acc => linkBody rest (c :: acc)
  | [], _ => none

/-- Attempt to match a `[[...]]` link at the current position. -/
def tryLink : List Char → Option (String × List Char)
  | '[' :: '[' :: rest => linkBody rest []
  | _ => none

/-- Left-to-right scan for all links; the fuel argument (instantiated with
the input length, which bounds the number of scan steps) makes the
recursion structural. -/
def findLinksAux : Nat → List Char → List String
  | 0, _ => []
  | _ + 1, [] => []
  | fuel + 1, c :: rest =>
    match tryLink (c :: rest) with
    | some (s, rest2) => s :: findLinksAux fuel rest2
    | none => findLinksAux fuel rest

/-- All `[[...]]` link identifiers of a document's content, in order of
appearance. -/
def findLinks (content : String) : List String :=
  findLinksAux content.data.length content.data

/-! ### The filesystem model -/

/-- The parts of the filesystem the traversal observes: the `os.walk`
listing of the master note's directory (directory path and file names, in
walk order), the set of existing paths (`os.path.exists`), and the result
of opening and reading a path (`none` when it raises). -/
structure FS where
  walk : List (String × List String)
  paths : List String
  read : String → Option String

/-- Lines 43-47 of the source: scan the walk listing for the first directory
whose file list contains the canonical name, returning the joined path. -/
def findInWalk : List (String × List String) → String → Option String
  | [], _ => none
  | (r, fls) :: rest, name =>
    if name ∈ fls then some (pathJoin r name) else findInWalk rest name

/-- Lines 50-53 of the source: the fallback path, the original link joined
to the base directory with ".md" appended when the joined path lacks it. -/
def potentialPath (base link : String) : String :=
  let p := pathJoin base link
  if endsWithMd p then p else p ++ ".md"

/-- Lines 43-55 of the source: resolution of a canonical name, walk search
first, existing fallback path second, `none` when both fail. -/
def resolve (fs : FS) (base link name : String) : Option String :=
  match findInWalk fs.walk name with
  | some p => some p
  | none =>
    if potentialPath base link ∈ fs.paths then some (potentialPath base link)
    else none

/-- The header line prefixed to each document's content in the corpus. -/
def header (found : String) : String :=
  "\n\n--- NOTE: " ++ basename found ++ " ---\n\n"

/-- One aggregated document: canonical name, resolved path, content. -/
structure Entry where
  name : String
  found : String
  content : String

/-- The text an entry contributes to the corpus. -/
def render (e : Entry) : String := header e.found ++ e.content

/-- Concatenation of the rendered entries, in order. -/
def corpusOf : List Entry → String
  | [] => ""
  | e :: es => render e ++ corpusOf es

/-- The traversal loop (lines 29-74 of the source), instrumented to return
the list of aggregated entries.  Pops the front of the queue, normalizes,
skips visited names, resolves, skips resolution and read failures, and on
success records the entry, marks the name visited and appends the content's
links to the back of the queue.  Fuel exhaustion yields `none`; it is proved
below that `fuelMeasure` fuel suffices. -/
def loopE (fs : FS) (base : String) :
    Nat → List String → List String → Option (List Entry)
  | _, [], _ => some []
  | 0, _ :: _, _ => none
  | fuel + 1, link :: queue, visited =>
    if canonicalName link ∈ visited then loopE fs base fuel queue visited
    else
      match resolve fs base link (canonicalName link) with
      | none => loopE fs base fuel queue visited
      | some found =>
        match fs.read found with
        | none => loopE fs base fuel queue visited
        | some content =>
          (loopE fs base fuel (queue ++ findLinks content)
              (canonicalName link :: visited)).map
            (fun es => ⟨canonicalName link, found, content⟩ :: es)

/-- The traversal loop exactly as the source writes it, threading the
aggregate-corpus string accumulator. -/
def loop (fs : FS) (base : String) :
    Nat → List String → List String → String → Option String
  | _, [], _, acc => some acc
  | 0, _ :: _, _, _ => none
  | fuel + 1, link :: queue, visited, acc =>
    if canonicalName link ∈ visited then loop fs base fuel queue visited acc
    else
      match resolve fs base link (canonicalName link) with
      | none => loop fs base fuel queue visited acc
      | some found =>
        match fs.read found with
        | none => loop fs base fuel queue visited acc
        | some content =>
          loop fs base fuel (queue ++ findLinks content)
            (canonicalName link :: visited)
            (acc ++ header found ++ content)

/-! ### Fuel bound

Every successful read adds a previously unvisited canonical name to the
visited set, and every canonical name that can be read successfully is the
name of a file in the walk listing or a basename (possibly with ".md"
appended) of an existing path, so the number of successful reads is bounded;
every other step shrinks the queue. -/

/-- All file names of the walk listing. -/
def walkFiles (fs : FS) : List String := (fs.walk.map Prod.snd).flatten

/-- All joined paths of the walk listing. -/
def walkPaths (fs : FS) : List String :=
  (fs.walk.map (fun rf => rf.2.map (pathJoin rf.1))).flatten

/-- Every path resolution can return. -/
def allFoundPaths (fs : FS) : List String := walkPaths fs ++ fs.paths

/-- Number of links of the content a path reads to, zero when unreadable. -/
def linkCount (fs : FS) (p : String) : Nat :=
  match fs.read p with
  | some c => (findLinks c).length
  | none => 0

/-- A bound on the number of links any successful read can enqueue. -/
def linkBound (fs : FS) : Nat :=
  ((allFoundPaths fs).map (linkCount fs)).foldr max 0

/-- A finite superset of the canonical names that can ever be read
successfully. -/
def goodNames (fs : FS) : List String :=
  walkFiles fs ++ fs.paths.map basename ++
    fs.paths.map (fun p => basename p ++ ".md")

/-- Number of possibly successful names not yet visited. -/
def unvisitedGood (fs : FS) (visited : List String) : Nat :=
  ((goodNames fs).filter (fun n => decide (n ∉ visited))).length

/-- The fuel bound: queue length plus, for each possibly successful unvisited
name, one step and the links it can enqueue. -/
def fuelMeasure (fs : FS) (queue visited : List String) : Nat :=
  queue.length + (linkBound fs + 1) * unvisitedGood fs visited

/-- `parse_obsidian_vault` (lines 12-76 of the source): the traversal run
from the master note's path, with the base directory its dirname and the
queue seeded with the path itself.  The fuel is the proved-sufficient bound,
so the result is `some` of the aggregate corpus. -/
def parse_obsidian_vault (fs : FS) (master : String) : Option String :=
  loop fs (dirname master) (fuelMeasure fs [master] []) [master] [] ""

/-- The entry-list view of the same run. -/
def entriesOf (fs : FS) (master : String) : Option (List Entry) :=
  loopE fs (dirname master) (fuelMeasure fs [master] []) [master] []

/-! ### Reachability: the semantic description of the aggregated set -/

/-- A link can be successfully resolved and its target read. -/
def goodLink (fs : FS) (base link : String) : Prop :=
  ∃ found content, resolve fs base link (canonicalName link) = some found ∧
    fs.read found = some content

/-- Links reachable from the master path: the path itself, and every link
occurring in the content of a reachable link that resolves and reads
successfully. -/
inductive Reach (fs : FS) (base master : String) : String → Prop where
  | root : Reach fs base master master
  | step {l found content l2} :
      Reach fs base master l →
      resolve fs base l (canonicalName l) = some found →
      fs.read found = some content →
      l2 ∈ findLinks content →
      Reach fs base master l2

/-! ### Model of `generate_resume_suggestions` (lines 78-150 of the source)

The JSON values the response handling manipulates, with the Python
operations the source applies to them (`in`, truthiness, subscripting,
integer indexing) modelled including the exceptions they raise; an
exception anywhere in the `try` block is caught by the handlers at lines
147-150. -/

inductive Json where
  | null
  | bool (b : Bool)
  | num (n : Int)
  | str (s : String)
  | arr (elems : List Json)
  | obj (fields : List (String × Json))

/-- Whether a list of characters occurs as a prefix of another. -/
def isPrefixL : List Char → List Char → Bool
  | [], _ => true
  | _ :: _, [] => false
  | a :: as, b :: bs => a == b && isPrefixL as bs

/-- Whether a list of characters occurs as a contiguous sublist of another;
models Python's `in` on strings. -/
def isSubL (pat : List Char) : List Char → Bool
  | [] => isPrefixL pat []
  | c :: rest => isPrefixL pat (c :: rest) || isSubL pat rest

/-- Python `==` between a string and a JSON value. -/
def eqStrKey (k : String) : Json → Bool
  | .str s => s == k
  | _ => false

/-- Python `k in j`: key membership for objects, element membership for
arrays, substring test for strings, `TypeError` otherwise. -/
def pyContains (j : Json) (k : String) : Except String Bool :=
  match j with
  | .obj kvs => .ok (kvs.any (fun kv => kv.1 == k))
  | .arr xs => .ok (xs.any (eqStrKey k))
  | .str s => .ok (isSubL k.data s.data)
  | _ => .error "TypeError: argument is not iterable"

/-- Python truthiness of a JSON value. -/
def pyTruthy : Json → Bool
  | .null => false
  | .bool b => b
  | .num n => n != 0
  | .str s => s != ""
  | .arr xs => !xs.isEmpty
  | .obj kvs => !kvs.isEmpty

/-- Python `j[k]` with a string key. -/
def pySubscript (j : Json) (k : String) : Except String Json :=
  match j with
  | .obj kvs =>
    match kvs.find? (fun kv => kv.1 == k) with
    | some kv => .ok kv.2
    | none => .error ("KeyError: " ++ k)
  | .str _ => .error "TypeError: string indices must be integers"
  | .arr _ => .error "TypeError: list indices must be integers"
  | _ => .error "TypeError: object is not subscriptable"

/-- Python `j[0]`. -/
def pyIndex0 (j : Json) : Except String Json :=
  match j with
  | .arr (x :: _) => .ok x
  | .arr [] => .error "IndexError: list index out of range"
  | .str s =>
    match s.data with
    | c :: _ => .ok (.str (String.mk [c]))
    | [] => .error "IndexError: string index out of range"
  | .obj _ => .error "KeyError: 0"
  | _ => .error "TypeError: object is not subscriptable"

mutual
/-- Model of `json.dumps` (line 145 of the source; the exact punctuation is
immaterial to every claim, only that the raw response is embedded). -/
def dumps : Json → String
  | .null => "null"
  | .bool b => cond b "true" "false"
  | .num n => toString n
  | .str s => "\"" ++ s ++ "\""
  | .arr xs => "[" ++ dumpsList xs ++ "]"
  | .obj kvs => "\x7b" ++ dumpsFields kvs ++ "\x7d"
def dumpsList : List Json → String
  | [] => ""
  | [x] => dumps x
  | x :: y :: rest => dumps x ++ ", " ++ dumpsList (y :: rest)
def dumpsFields : List (String × Json) → String
  | [] => ""
  | [kv] => "\"" ++ kv.1 ++ "\": " ++ dumps kv.2
  | kv :: kv2 :: rest =>
    "\"" ++ kv.1 ++ "\": " ++ dumps kv.2 ++ ", " ++ dumpsFields (kv2 :: rest)
end

/-- Result of the candidate-extraction block (lines 140-144): the returned
text value, fall-through to the "could not extract" message, or a raised
exception. -/
inductive ExtractR where
  | success (t : Json)
  | fallthrough
  | exc (msg : String)

/-- Lines 140-144 of the source, with Python's short-circuit evaluation and
exception behaviour: `result['candidates'][0]['content']['parts'][0]['text']`
guarded by `in` and truthiness checks. -/
def extractText (result : Json) : ExtractR :=
  match pyContains result "candidates" with
  | .error m => .exc m
  | .ok hasC =>
    if hasC then
      match pySubscript result "candidates" with
      | .error m => .exc m
      | .ok cands =>
        if pyTruthy cands then
          match pyIndex0 cands with
          | .error m => .exc m
          | .ok candidate =>
            match pyContains candidate "content" with
            | .error m => .exc m
            | .ok hasContent =>
              if hasContent then
                match pySubscript candidate "content" with
                | .error m => .exc m
                | .ok content =>
                  match pyContains content "parts" with
                  | .error m => .exc m
                  | .ok hasParts =>
                    if hasParts then
                      match pySubscript content "parts" with
                      | .error m => .exc m
                      | .ok parts =>
                        if pyTruthy parts then
                          match pyIndex0 parts with
                          | .error m => .exc m
                          | .ok p0 =>
                            match pySubscript p0 "text" with
                            | .error m => .exc m
                            | .ok t => .success t
                        else .fallthrough
                    else .fallthrough
              else .fallthrough
        else .fallthrough
    else .fallthrough

/-- Outcome of the single `requests.post` call (line 135): a transport-level
`RequestException`, or a response with its status code, the message the
`HTTPError` raised by `raise_for_status` would carry, and the result of
`response.json()` (`.error` when decoding raises; `requests` raises its
`JSONDecodeError`, a `RequestException` subclass, in that case). -/
inductive PostResult where
  | transportError (msg : String)
  | response (status : Nat) (httpErrText : String) (body : Except String Json)

/-- The string built by the handler at lines 147-148. -/
def reqErr (m : String) : String := "An error occurred with the API request: " ++ m

/-- The string built by the handler at lines 149-150. -/
def unexpectedErr (m : String) : String := "An unexpected error occurred: " ++ m

/-- The fall-through message of line 145. -/
def cannotExtract (result : Json) : String :=
  "Error: Could not extract valid content from API response. Full response: "
    ++ dumps result

/-- Lines 134-150 of the source: the whole `try`/`except` of
`generate_resume_suggestions` as a function of the post outcome.  The
function returns the extracted text value on success and a `.str` error
message in every failure case; the prompt construction (lines 89-132) does
not influence which branch is taken. -/
def generate_resume_suggestions (r : PostResult) : Json :=
  match r with
  | .transportError m => .str (reqErr m)
  | .response status httpErrText body =>
    if 400 ≤ status ∧ status < 600 then .str (reqErr httpErrText)
    else
      match body with
      | .error m => .str (reqErr m)
      | .ok result =>
        match extractText result with
        | .success t => t
        | .fallthrough => .str (cannotExtract result)
        | .exc m => .str (unexpectedErr m)

/-- The request loop does not exist: the function issues exactly one
attempt, so its result depends only on the first element of any stream of
would-be attempt outcomes. -/
def generateFromAttempts (attempts : Nat → PostResult) : Json :=
  generate_resume_suggestions (attempts 0)

/-! ### Model of `main` (lines 152-194 of the source) -/

/-- The externally visible actions `main` can take after parsing the
portfolio. -/
inductive MainAction where
  | reportParseFailure
  | readJobDescription
  | reportJobDescFailure
  | callApi
  | writeOutput
  | printSuggestionsFallback
deriving DecidableEq

/-- The environment of a `main` run: the job-description read result
(`none` when opening or reading it raises), the outcome of the API post,
and whether writing the output file succeeds. -/
structure MainEnv where
  jobDesc : Option String
  api : PostResult
  writeOk : Bool

/-- The action trace of `main`: parse the vault; on an empty corpus report
and return (lines 165-167); otherwise read the job description, returning
on failure (lines 172-181); then call the API and attempt the output write,
printing the suggestions to the console when the write raises (lines
183-194).  The `none` branch of the match is unreachable
(`entriesOf_isSome`). -/
def mainModel (fs : FS) (master : String) (env : MainEnv) : List MainAction :=
  match parse_obsidian_vault fs master with
  | none => []
  | some corpus =>
    if corpus = "" then [.reportParseFailure]
    else
      .readJobDescription ::
        match env.jobDesc with
        | none => [.reportJobDescFailure]
        | some _ =>
          .callApi :: .writeOutput ::
            (if env.writeOk then [] else [.printSuggestionsFallback])

/-! ### Concrete example vaults used by the claim theorems -/

/-- The spec's worked example: a root linking `[[Skills]]` and
`[[Projects]]`, both resolvable, neither containing further links. -/
def fs3 : FS :=
  ⟨[("vault", ["root.md", "Skills.md", "Projects.md"])],
   ["vault/root.md", "vault/Skills.md", "vault/Projects.md"],
   fun p =>
     if p = "vault/root.md" then some "Portfolio. [[Skills]] [[Projects]]"
     else if p = "vault/Skills.md" then some "Skill list."
     else if p = "vault/Projects.md" then some "Project list."
     else none⟩

/-- A two-note cycle: A links B and B links back to A. -/
def fsCyc : FS :=
  ⟨[("v", ["A.md", "B.md"])], ["v/A.md", "v/B.md"],
   fun p =>
     if p = "v/A.md" then some "alpha [[B]]"
     else if p = "v/B.md" then some "beta [[A]]"
     else none⟩

/-- The acyclic counterpart of `fsCyc`: the back link removed. -/
def fsAcyc : FS :=
  ⟨[("v", ["A.md", "B.md"])], ["v/A.md", "v/B.md"],
   fun p =>
     if p = "v/A.md" then some "alpha [[B]]"
     else if p = "v/B.md" then some "beta"
     else none⟩

/-- A root whose only link cannot be resolved. -/
def fs6 : FS :=
  ⟨[("v", ["root.md"])], ["v/root.md"],
   fun p => if p = "v/root.md" then some "hello [[Missing]]" else none⟩

/-- A vault in which every read raises. -/
def fs7 : FS :=
  ⟨[("v", ["Bad.md"])], ["v/Bad.md"], fun _ => none⟩

/-- An empty vault: nothing resolves, so the corpus is empty. -/
def fs8 : FS :=
  ⟨[], [], fun _ => none⟩

/-- A vault where the master note is given by the extension-less path
"vault/root": its canonical name "root.md" is matched by a different file
in a subdirectory, while the file at the given path itself holds other
content and would only be found by the fallback. -/
def fs10 : FS :=
  ⟨[("vault", ["root"]), ("vault/notes", ["root.md"])],
   ["vault/root", "vault/notes/root.md"],
   fun p =>
     if p = "vault/root" then some "ORIGINAL"
     else if p = "vault/notes/root.md" then some "SHADOW"
     else none⟩

/-- A diamond: R links A and B, both link C, so C has two incoming links. -/
def fsD : FS :=
  ⟨[("v", ["R.md", "A.md", "B.md", "C.md"])], [],
   fun p =>
     if p = "v/R.md" then some "[[A]] [[B]]"
     else if p = "v/A.md" then some "[[C]]"
     else if p = "v/B.md" then some "[[C]]"
     else if p = "v/C.md" then some "c"
     else none⟩

/-- The entry list the diamond vault aggregates: C appears exactly once. -/
def esD : List Entry :=
  [⟨"R.md", "v/R.md", "[[A]] [[B]]"⟩, ⟨"A.md", "v/A.md", "[[C]]"⟩,
   ⟨"B.md", "v/B.md", "[[C]]"⟩, ⟨"C.md", "v/C.md", "c"⟩]

/-- A walk listing with the name "n.md" in two directories, and an existing
fallback path for the name "zzz.md". -/
def fs5 : FS :=
  ⟨[("v", ["x.md"]), ("v/a", ["n.md"]), ("v/b", ["n.md"])],
   ["v/zzz.md"], fun _ => none⟩

/-- A well-formed response body with one candidate holding one text part. -/
def okBody : Json :=
  .obj [("candidates", .arr [.obj [("content",
    .obj [("parts", .arr [.obj [("text", .str "TEXT")]])])]])]

/-! ### Elementary string and path lemmas -/

theorem str_append_assoc (a b c : String) : a ++ b ++ c = a ++ (b ++ c) := by
  apply String.ext
  simp [String.data_append, List.append_assoc]

theorem str_empty_append (s : String) : "" ++ s = s := by
  apply String.ext
  simp [String.data_append]

theorem str_append_empty (s : String) : s ++ "" = s := by
  apply String.ext
  simp [String.data_append]

theorem takeWhile_append_slash_cons (x y : List Char) :
    (x ++ '/' :: y).takeWhile notSlash = x.takeWhile notSlash := by
  induction x with
  | nil => simp [List.takeWhile_cons, notSlash]
  | cons c cs ih =>
    by_cases hc : c = '/'
    · subst hc
      simp [List.takeWhile_cons, notSlash]
    · simp [List.takeWhile_cons, notSlash, hc, ih]

theorem basenameL_append_sep (x y : List Char) :
    basenameL (x ++ '/' :: y) = basenameL y := by
  unfold basenameL
  have h : (x ++ '/' :: y).reverse = y.reverse ++ '/' :: x.reverse := by
    simp [List.reverse_append]
  rw [h, takeWhile_append_slash_cons]

theorem endsWithSlash_exists {s : String} (h : endsWithSlash s = true) :
    ∃ t, s.data.reverse = '/' :: t := by
  unfold endsWithSlash at h
  split at h
  · next t heq => exact ⟨t, heq⟩
  · exact absurd h (by simp)

theorem endsWithMdL_exists {l : List Char} (h : endsWithMdL l = true) :
    ∃ t, l.reverse = 'd' :: 'm' :: '.' :: t := by
  unfold endsWithMdL at h
  split at h
  · next t heq => exact ⟨t, heq⟩
  · exact absurd h (by simp)

theorem endsWithMdL_append_of {x y : List Char} (h : endsWithMdL y = true) :
    endsWithMdL (x ++ y) = true := by
  obtain ⟨t, ht⟩ := endsWithMdL_exists h
  unfold endsWithMdL
  rw [List.reverse_append, ht]
  rfl

theorem basename_pathJoin (a b : String) :
    basename (pathJoin a b) = basename b := by
  unfold pathJoin
  by_cases ha : a = ""
  · simp [ha]
  · rw [if_neg ha]
    by_cases hb : startsWithSlash b
    · rw [if_pos hb]
    · rw [if_neg hb]
      by_cases hs : endsWithSlash a
      · rw [if_pos hs]
        obtain ⟨t, ht⟩ := endsWithSlash_exists hs
        have hA : a.data = t.reverse ++ ['/'] := by
          have := congrArg List.reverse ht
          simpa using this
        unfold basename
        congr 1
        have hd : (a ++ b).data = t.reverse ++ '/' :: b.data := by
          simp [String.data_append, hA]
        rw [hd, basenameL_append_sep]
      · rw [if_neg hs]
        unfold basename
        congr 1
        have hd : (a ++ "/" ++ b).data = a.data ++ '/' :: b.data := by
          have hsep : ("/" : String).data = ['/'] := rfl
          simp [String.data_append, hsep]
        rw [hd, basenameL_append_sep]

theorem basenameL_append_md (l : List Char) :
    basenameL (l ++ ['.', 'm', 'd']) = basenameL l ++ ['.', 'm', 'd'] := by
  unfold basenameL
  have h : (l ++ ['.', 'm', 'd']).reverse = 'd' :: 'm' :: '.' :: l.reverse := by
    simp
  rw [h]
  have h2 : List.takeWhile notSlash ('d' :: 'm' :: '.' :: l.reverse)
      = 'd' :: 'm' :: '.' :: List.takeWhile notSlash l.reverse := by
    simp [List.takeWhile_cons, notSlash]
  rw [h2]
  simp

theorem basename_append_md (s : String) :
    basename (s ++ ".md") = basename s ++ ".md" := by
  apply String.ext
  have hd : (s ++ ".md").data = s.data ++ ['.', 'm', 'd'] := by
    have hmd : (".md" : String).data = ['.', 'm', 'd'] := rfl
    simp [String.data_append, hmd]
  show basenameL (s ++ ".md").data = (basename s ++ ".md").data
  rw [hd, basenameL_append_md]
  simp [basename, String.data_append]

theorem endsWithMd_pathJoin_of {a b : String} (h : endsWithMd b = true) :
    endsWithMd (pathJoin a b) = true := by
  unfold pathJoin
  split
  · exact h
  · split
    · exact h
    · unfold endsWithMd at h ⊢
      split
      · have hd : (a ++ b).data = a.data ++ b.data := String.data_append a b
        rw [hd]
        exact endsWithMdL_append_of h
      · have hd : (a ++ "/" ++ b).data = (a ++ "/").data ++ b.data :=
          String.data_append _ b
        rw [hd]
        exact endsWithMdL_append_of h

theorem endsWithMd_append_md (s : String) : endsWithMd (s ++ ".md") = true := by
  unfold endsWithMd
  rw [String.data_append]
  exact endsWithMdL_append_of rfl

theorem endsWithMd_basename_of {s : String} (h : endsWithMd s = true) :
    endsWithMd (basename s) = true := by
  obtain ⟨t, ht⟩ := endsWithMdL_exists h
  unfold endsWithMd basename
  show endsWithMdL (basenameL s.data) = true
  unfold basenameL
  rw [ht]
  have h2 : List.takeWhile notSlash ('d' :: 'm' :: '.' :: t)
      = 'd' :: 'm' :: '.' :: List.takeWhile notSlash t := by
    simp [List.takeWhile_cons, notSlash]
  rw [h2]
  unfold endsWithMdL
  simp

/-! ### Resolution lemmas -/

theorem findInWalk_some {walk : List (String × List String)} {name p : String}
    (h : findInWalk walk name = some p) :
    ∃ rf ∈ walk, name ∈ rf.2 ∧ p = pathJoin rf.1 name := by
  induction walk with
  | nil => exact absurd h (by simp [findInWalk])
  | cons rf rest ih =>
    obtain ⟨r, fls⟩ := rf
    unfold findInWalk at h
    by_cases hm : name ∈ fls
    · rw [if_pos hm] at h
      exact ⟨(r, fls), List.mem_cons_self _ _, hm, (Option.some_inj.mp h).symm⟩
    · rw [if_neg hm] at h
      obtain ⟨rf2, hrf2, hmem, hp⟩ := ih h
      exact ⟨rf2, List.mem_cons_of_mem _ hrf2, hmem, hp⟩

theorem findInWalk_none_of {walk : List (String × List String)} {name : String}
    (h : ∀ rf ∈ walk, name ∉ rf.2) : findInWalk walk name = none := by
  induction walk with
  | nil => rfl
  | cons rf rest ih =>
    obtain ⟨r, fls⟩ := rf
    unfold findInWalk
    rw [if_neg (h (r, fls) (List.mem_cons_self _ _))]
    exact ih (fun rf2 hrf2 => h rf2 (List.mem_cons_of_mem _ hrf2))

theorem findInWalk_first {pre : List (String × List String)} {r : String}
    {fls : List String} (post : List (String × List String)) {name : String}
    (hpre : ∀ rf ∈ pre, name ∉ rf.2) (hmem : name ∈ fls) :
    findInWalk (pre ++ (r, fls) :: post) name = some (pathJoin r name) := by
  induction pre with
  | nil =>
    rw [List.nil_append]
    simp only [findInWalk]
    rw [if_pos hmem]
  | cons rf rest ih =>
    obtain ⟨r2, fls2⟩ := rf
    rw [List.cons_append]
    simp only [findInWalk]
    rw [if_neg (hpre (r2, fls2) (List.mem_cons_self _ _))]
    exact ih (fun rf2 hrf2 => hpre rf2 (List.mem_cons_of_mem _ hrf2))

/-- Any successfully resolved canonical name is in the finite `goodNames`
list and its resolved path is in the finite `allFoundPaths` list. -/
theorem resolve_name_good {fs : FS} {base link found : String}
    (hres : resolve fs base link (canonicalName link) = some found) :
    canonicalName link ∈ goodNames fs ∧ found ∈ allFoundPaths fs := by
  unfold resolve at hres
  cases hw : findInWalk fs.walk (canonicalName link) with
  | some p =>
    rw [hw] at hres
    have hpf : p = found := Option.some_inj.mp hres
    obtain ⟨rf, hrf, hmem, hp⟩ := findInWalk_some hw
    constructor
    · unfold goodNames walkFiles
      apply List.mem_append_left
      apply List.mem_append_left
      exact List.mem_flatten.mpr ⟨rf.2, List.mem_map.mpr ⟨rf, hrf, rfl⟩, hmem⟩
    · unfold allFoundPaths walkPaths
      apply List.mem_append_left
      refine List.mem_flatten.mpr ⟨rf.2.map (pathJoin rf.1),
        List.mem_map.mpr ⟨rf, hrf, rfl⟩, ?_⟩
      rw [← hpf, hp]
      exact List.mem_map.mpr ⟨canonicalName link, hmem, rfl⟩
  | none =>
    rw [hw] at hres
    by_cases hex : potentialPath base link ∈ fs.paths
    · rw [if_pos hex] at hres
      have hpf : potentialPath base link = found := Option.some_inj.mp hres
      rw [hpf] at hex
      refine ⟨?_, List.mem_append_right _ hex⟩
      unfold goodNames
      by_cases hml : endsWithMd link
      · have hP : endsWithMd (pathJoin base link) = true := endsWithMd_pathJoin_of hml
        have hpp : potentialPath base link = pathJoin base link := by
          unfold potentialPath
          rw [if_pos hP]
        have hn : canonicalName link = basename found := by
          rw [← hpf, hpp, basename_pathJoin]
          unfold canonicalName
          rw [if_pos hml]
        apply List.mem_append_left
        apply List.mem_append_right
        rw [hn]
        exact List.mem_map.mpr ⟨found, hex, rfl⟩
      · by_cases hP : endsWithMd (pathJoin base link)
        · have hpp : potentialPath base link = pathJoin base link := by
            unfold potentialPath
            rw [if_pos hP]
          have hn : canonicalName link = basename found ++ ".md" := by
            rw [← hpf, hpp, basename_pathJoin]
            unfold canonicalName
            rw [if_neg (by simp [hml])]
          apply List.mem_append_right
          rw [hn]
          exact List.mem_map.mpr ⟨found, hex, rfl⟩
        · have hpp : potentialPath base link = pathJoin base link ++ ".md" := by
            unfold potentialPath
            rw [if_neg (by simp [hP])]
          have hn : canonicalName link = basename found := by
            rw [← hpf, hpp, basename_append_md, basename_pathJoin]
            unfold canonicalName
            rw [if_neg (by simp [hml])]
          apply List.mem_append_left
          apply List.mem_append_right
          rw [hn]
          exact List.mem_map.mpr ⟨found, hex, rfl⟩
    · rw [if_neg hex] at hres
      exact absurd hres (by simp)

/-! ### Fuel-bound lemmas -/

theorem le_foldr_max {l : List Nat} {x : Nat} (h : x ∈ l) :
    x ≤ l.foldr max 0 := by
  induction l with
  | nil => exact absurd h (by simp)
  | cons y ys ih =>
    rcases List.mem_cons.mp h with rfl | h2
    · exact le_max_left _ _
    · exact le_trans (ih h2) (le_max_right _ _)

theorem links_le_linkBound {fs : FS} {found content : String}
    (hfp : found ∈ allFoundPaths fs) (hr : fs.read found = some content) :
    (findLinks content).length ≤ linkBound fs := by
  have hc : linkCount fs found = (findLinks content).length := by
    unfold linkCount
    rw [hr]
  rw [← hc]
  exact le_foldr_max (List.mem_map.mpr ⟨found, hfp, rfl⟩)

theorem length_filter_mono {α : Type} (l : List α) (p q : α → Bool)
    (h : ∀ a, p a = true → q a = true) :
    (l.filter p).length ≤ (l.filter q).length := by
  induction l with
  | nil => simp
  | cons x xs ih =>
    by_cases hp : p x = true
    · rw [List.filter_cons_of_pos hp, List.filter_cons_of_pos (h x hp)]
      simpa using ih
    · rw [List.filter_cons_of_neg (by simpa using hp)]
      by_cases hq : q x = true
      · rw [List.filter_cons_of_pos hq]
        exact le_trans ih (Nat.le_succ _)
      · rw [List.filter_cons_of_neg (by simpa using hq)]
        exact ih

theorem length_filter_not_mem_cons_lt (l v : List String) (x : String)
    (hx : x ∈ l) (hxv : x ∉ v) :
    (l.filter (fun n => decide (n ∉ x :: v))).length
      < (l.filter (fun n => decide (n ∉ v))).length := by
  induction l with
  | nil => exact absurd hx (by simp)
  | cons y ys ih =>
    have hmono := length_filter_mono ys (fun n => decide (n ∉ x :: v))
      (fun n => decide (n ∉ v))
      (by
        intro a ha
        simp only [decide_eq_true_eq] at ha ⊢
        exact fun hmem => ha (List.mem_cons_of_mem _ hmem))
    rcases List.mem_cons.mp hx with rfl | hx2
    · rw [List.filter_cons_of_neg (by simp), List.filter_cons_of_pos (by simp [hxv])]
      simp only [List.length_cons]
      exact Nat.lt_succ_of_le hmono
    · by_cases hy1 : y ∈ x :: v
      · rw [List.filter_cons_of_neg (by simp [hy1])]
        by_cases hy2 : y ∈ v
        · rw [List.filter_cons_of_neg (by simp [hy2])]
          exact ih hx2
        · rw [List.filter_cons_of_pos (by simp [hy2])]
          simp only [List.length_cons]
          exact Nat.lt_succ_of_lt (ih hx2)
      · have hy2 : y ∉ v := fun hmem => hy1 (List.mem_cons_of_mem _ hmem)
        rw [List.filter_cons_of_pos (by simp [hy1]), List.filter_cons_of_pos (by simp [hy2])]
        simp only [List.length_cons]
        exact Nat.succ_lt_succ (ih hx2)

theorem fuel_arith (qlen L B X Y fuel : Nat) (hL : L ≤ B)
    (hXY : X + (B + 1) ≤ Y) (h : qlen + 1 + Y ≤ fuel + 1) :
    qlen + L + X ≤ fuel := by
  omega

/-! ### Step equations of the two loops -/

theorem loopE_visited {fs : FS} {base : String} {fuel : Nat} {link : String}
    {queue visited : List String} (hv : canonicalName link ∈ visited) :
    loopE fs base (fuel + 1) (link :: queue) visited
      = loopE fs base fuel queue visited := by
  simp only [loopE]
  rw [if_pos hv]

theorem loopE_unresolved {fs : FS} {base : String} {fuel : Nat} {link : String}
    {queue visited : List String} (hv : canonicalName link ∉ visited)
    (hres : resolve fs base link (canonicalName link) = none) :
    loopE fs base (fuel + 1) (link :: queue) visited
      = loopE fs base fuel queue visited := by
  simp only [loopE]
  rw [if_neg hv]
  simp only [hres]

theorem loopE_readfail {fs : FS} {base : String} {fuel : Nat} {link : String}
    {queue visited : List String} {found : String}
    (hv : canonicalName link ∉ visited)
    (hres : resolve fs base link (canonicalName link) = some found)
    (hread : fs.read found = none) :
    loopE fs base (fuel + 1) (link :: queue) visited
      = loopE fs base fuel queue visited := by
  simp only [loopE]
  rw [if_neg hv]
  simp only [hres, hread]

theorem loopE_success {fs : FS} {base : String} {fuel : Nat} {link : String}
    {queue visited : List String} {found content : String}
    (hv : canonicalName link ∉ visited)
    (hres : resolve fs base link (canonicalName link) = some found)
    (hread : fs.read found = some content) :
    loopE fs base (fuel + 1) (link :: queue) visited
      = (loopE fs base fuel (queue ++ findLinks content)
          (canonicalName link :: visited)).map
        (fun es => ⟨canonicalName link, found, content⟩ :: es) := by
  simp only [loopE]
  rw [if_neg hv]
  simp only [hres, hread]

theorem loop_visited {fs : FS} {base : String} {fuel : Nat} {link : String}
    {queue visited : List String} {acc : String}
    (hv : canonicalName link ∈ visited) :
    loop fs base (fuel + 1) (link :: queue) visited acc
      = loop fs base fuel queue visited acc := by
  simp only [loop]
  rw [if_pos hv]

theorem loop_unresolved {fs : FS} {base : String} {fuel : Nat} {link : String}
    {queue visited : List String} {acc : String}
    (hv : canonicalName link ∉ visited)
    (hres : resolve fs base link (canonicalName link) = none) :
    loop fs base (fuel + 1) (link :: queue) visited acc
      = loop fs base fuel queue visited acc := by
  simp only [loop]
  rw [if_neg hv]
  simp only [hres]

theorem loop_readfail {fs : FS} {base : String} {fuel : Nat} {link : String}
    {queue visited : List String} {acc found : String}
    (hv : canonicalName link ∉ visited)
    (hres : resolve fs base link (canonicalName link) = some found)
    (hread : fs.read found = none) :
    loop fs base (fuel + 1) (link :: queue) visited acc
      = loop fs base fuel queue visited acc := by
  simp only [loop]
  rw [if_neg hv]
  simp only [hres, hread]

theorem loop_success {fs : FS} {base : String} {fuel : Nat} {link : String}
    {queue visited : List String} {acc found content : String}
    (hv : canonicalName link ∉ visited)
    (hres : resolve fs base link (canonicalName link) = some found)
    (hread : fs.read found = some content) :
    loop fs base (fuel + 1) (link :: queue) visited acc
      = loop fs base fuel (queue ++ findLinks content)
          (canonicalName link :: visited) (acc ++ header found ++ content) := by
  simp only [loop]
  rw [if_neg hv]
  simp only [hres, hread]

theorem isSome_map {α β : Type} (f : α → β) (x : Option α) :
    (x.map f).isSome = x.isSome := by
  cases x <;> rfl

/-- With fuel at least `fuelMeasure`, the traversal loop cannot run out:
every skip shrinks the queue, and every successful read visits a fresh
member of the finite `goodNames` list while enqueueing at most `linkBound`
links. -/
theorem loopE_isSome (fs : FS) (base : String) :
    ∀ fuel queue visited, fuelMeasure fs queue visited ≤ fuel →
      (loopE fs base fuel queue visited).isSome = true := by
  intro fuel
  induction fuel with
  | zero =>
    intro queue visited h
    have hq : queue = [] := by
      unfold fuelMeasure at h
      have hlen : queue.length = 0 := by omega
      exact List.length_eq_zero.mp hlen
    subst hq
    rfl
  | succ fuel ih =>
    intro queue visited h
    cases queue with
    | nil => rfl
    | cons link rest =>
      have hstep : fuelMeasure fs rest visited ≤ fuel := by
        unfold fuelMeasure at h ⊢
        simp only [List.length_cons] at h
        omega
      by_cases hv : canonicalName link ∈ visited
      · rw [loopE_visited hv]
        exact ih rest visited hstep
      · cases hres : resolve fs base link (canonicalName link) with
        | none =>
          rw [loopE_unresolved hv hres]
          exact ih rest visited hstep
        | some found =>
          cases hread : fs.read found with
          | none =>
            rw [loopE_readfail hv hres hread]
            exact ih rest visited hstep
          | some content =>
            rw [loopE_success hv hres hread, isSome_map]
            apply ih
            obtain ⟨hg, hfp⟩ := resolve_name_good hres
            have hL : (findLinks content).length ≤ linkBound fs :=
              links_le_linkBound hfp hread
            have hlt : unvisitedGood fs (canonicalName link :: visited)
                < unvisitedGood fs visited := by
              unfold unvisitedGood
              exact length_filter_not_mem_cons_lt _ _ _ hg hv
            have hXY : (linkBound fs + 1) * unvisitedGood fs (canonicalName link :: visited)
                + (linkBound fs + 1)
                ≤ (linkBound fs + 1) * unvisitedGood fs visited := by
              have hm := Nat.mul_le_mul_left (linkBound fs + 1) (Nat.succ_le_of_lt hlt)
              rw [Nat.mul_succ] at hm
              exact hm
            unfold fuelMeasure at h ⊢
            simp only [List.length_cons] at h
            simp only [List.length_append]
            exact fuel_arith _ _ _ _ _ _ hL hXY h

/-! ### Agreement of the two loops -/

theorem loop_eq_loopE (fs : FS) (base : String) :
    ∀ fuel queue visited acc,
      loop fs base fuel queue visited acc
        = (loopE fs base fuel queue visited).map (fun es => acc ++ corpusOf es) := by
  intro fuel
  induction fuel with
  | zero =>
    intro queue visited acc
    cases queue with
    | nil =>
      show some acc = some (acc ++ corpusOf [])
      rw [corpusOf, str_append_empty]
    | cons _ _ => rfl
  | succ fuel ih =>
    intro queue visited acc
    cases queue with
    | nil =>
      show some acc = some (acc ++ corpusOf [])
      rw [corpusOf, str_append_empty]
    | cons link rest =>
      by_cases hv : canonicalName link ∈ visited
      · rw [loop_visited hv, loopE_visited hv]
        exact ih rest visited acc
      · cases hres : resolve fs base link (canonicalName link) with
        | none =>
          rw [loop_unresolved hv hres, loopE_unresolved hv hres]
          exact ih rest visited acc
        | some found =>
          cases hread : fs.read found with
          | none =>
            rw [loop_readfail hv hres hread, loopE_readfail hv hres hread]
            exact ih rest visited acc
          | some content =>
            rw [loop_success hv hres hread, loopE_success hv hres hread, ih]
            cases hE : loopE fs base fuel (rest ++ findLinks content)
                (canonicalName link :: visited) with
            | none => rfl
            | some es =>
              show some (acc ++ header found ++ content ++ corpusOf es)
                = some (acc ++ corpusOf (⟨canonicalName link, found, content⟩ :: es))
              congr 1
              rw [corpusOf]
              show acc ++ header found ++ content ++ corpusOf es
                = acc ++ (header found ++ content ++ corpusOf es)
              simp only [str_append_assoc]

/-- The published function agrees with the entry-list view. -/
theorem parse_eq_corpus {fs : FS} {master : String} {es : List Entry}
    (h : entriesOf fs master = some es) :
    parse_obsidian_vault fs master = some (corpusOf es) := by
  unfold parse_obsidian_vault
  rw [loop_eq_loopE]
  unfold entriesOf at h
  rw [h]
  show some ("" ++ corpusOf es) = some (corpusOf es)
  rw [str_empty_append]

/-- The run always produces an entry list. -/
theorem entriesOf_isSome (fs : FS) (master : String) :
    (entriesOf fs master).isSome = true :=
  loopE_isSome fs (dirname master) (fuelMeasure fs [master] []) [master] []
    (le_refl _)

/-! ### The visited-set invariant: no canonical name is aggregated twice -/

theorem loopE_nodup (fs : FS) (base : String) :
    ∀ fuel queue visited es, loopE fs base fuel queue visited = some es →
      (es.map Entry.name).Nodup ∧ ∀ n ∈ es.map Entry.name, n ∉ visited := by
  intro fuel
  induction fuel with
  | zero =>
    intro queue visited es h
    cases queue with
    | nil =>
      have hes : es = [] := by
        have h2 : some [] = some es := h
        exact (Option.some_inj.mp h2).symm
      subst hes
      simp
    | cons _ _ => exact absurd h (by simp [loopE])
  | succ fuel ih =>
    intro queue visited es h
    cases queue with
    | nil =>
      have hes : es = [] := by
        have h2 : some [] = some es := h
        exact (Option.some_inj.mp h2).symm
      subst hes
      simp
    | cons link rest =>
      by_cases hv : canonicalName link ∈ visited
      · rw [loopE_visited hv] at h
        exact ih rest visited es h
      · cases hres : resolve fs base link (canonicalName link) with
        | none =>
          rw [loopE_unresolved hv hres] at h
          exact ih rest visited es h
        | some found =>
          cases hread : fs.read found with
          | none =>
            rw [loopE_readfail hv hres hread] at h
            exact ih rest visited es h
          | some content =>
            rw [loopE_success hv hres hread] at h
            cases hE : loopE fs base fuel (rest ++ findLinks content)
                (canonicalName link :: visited) with
            | none => rw [hE] at h; exact absurd h (by simp)
            | some es2 =>
              rw [hE] at h
              have hes : es = ⟨canonicalName link, found, content⟩ :: es2 :=
                (Option.some_inj.mp h).symm
              subst hes
              obtain ⟨hnd, hnv⟩ := ih _ _ _ hE
              constructor
              · simp only [List.map_cons]
                rw [List.nodup_cons]
                refine ⟨?_, hnd⟩
                intro hmem
                exact (hnv _ hmem) (List.mem_cons_self _ _)
              · intro n hn
                simp only [List.map_cons, List.mem_cons] at hn
                rcases hn with rfl | hn
                · exact hv
                · intro hmem
                  exact (hnv _ hn) (List.mem_cons_of_mem _ hmem)

/-- Every aggregated entry arises from a reachable link whose resolution and
read produced exactly the recorded path and content. -/
theorem loopE_sound (fs : FS) (base master : String) :
    ∀ fuel queue visited es,
      (∀ l ∈ queue, Reach fs base master l) →
      loopE fs base fuel queue visited = some es →
      ∀ e ∈ es, ∃ l, Reach fs base master l ∧ canonicalName l = e.name ∧
        resolve fs base l (canonicalName l) = some e.found ∧
        fs.read e.found = some e.content := by
  intro fuel
  induction fuel with
  | zero =>
    intro queue visited es hq h
    cases queue with
    | nil =>
      have hes : es = [] := (Option.some_inj.mp h).symm
      subst hes
      intro e he
      exact absurd he (by simp)
    | cons _ _ => exact absurd h (by simp [loopE])
  | succ fuel ih =>
    intro queue visited es hq h
    cases queue with
    | nil =>
      have hes : es = [] := (Option.some_inj.mp h).symm
      subst hes
      intro e he
      exact absurd he (by simp)
    | cons link rest =>
      have hqrest : ∀ l ∈ rest, Reach fs base master l :=
        fun l hl => hq l (List.mem_cons_of_mem _ hl)
      by_cases hv : canonicalName link ∈ visited
      · rw [loopE_visited hv] at h
        exact ih rest visited es hqrest h
      · cases hres : resolve fs base link (canonicalName link) with
        | none =>
          rw [loopE_unresolved hv hres] at h
          exact ih rest visited es hqrest h
        | some found =>
          cases hread : fs.read found with
          | none =>
            rw [loopE_readfail hv hres hread] at h
            exact ih rest visited es hqrest h
          | some content =>
            rw [loopE_success hv hres hread] at h
            cases hE : loopE fs base fuel (rest ++ findLinks content)
                (canonicalName link :: visited) with
            | none => rw [hE] at h; exact absurd h (by simp)
            | some es2 =>
              rw [hE] at h
              have hes : es = ⟨canonicalName link, found, content⟩ :: es2 :=
                (Option.some_inj.mp h).symm
              subst hes
              have hlink : Reach fs base master link := hq link (List.mem_cons_self _ _)
              have hq2 : ∀ l ∈ rest ++ findLinks content, Reach fs base master l := by
                intro l hl
                rcases List.mem_append.mp hl with hl1 | hl2
                · exact hqrest l hl1
                · exact Reach.step hlink hres hread hl2
              intro e he
              rcases List.mem_cons.mp he with rfl | he2
              · exact ⟨link, hlink, rfl, hres, hread⟩
              · exact ih _ _ _ hq2 hE e he2

/-- The worklist invariant: at a successful exit, every good link that was
on the queue has been aggregated or was already visited, and every good link
occurring in aggregated content likewise. -/
theorem loopE_complete (fs : FS) (base : String) :
    ∀ fuel queue visited es,
      loopE fs base fuel queue visited = some es →
      ((∀ l ∈ queue, goodLink fs base l →
          canonicalName l ∈ es.map Entry.name ∨ canonicalName l ∈ visited) ∧
       (∀ e ∈ es, ∀ l2 ∈ findLinks e.content, goodLink fs base l2 →
          canonicalName l2 ∈ es.map Entry.name ∨ canonicalName l2 ∈ visited)) := by
  intro fuel
  induction fuel with
  | zero =>
    intro queue visited es h
    cases queue with
    | nil =>
      have hes : es = [] := (Option.some_inj.mp h).symm
      subst hes
      exact ⟨fun l hl => absurd hl (by simp), fun e he => absurd he (by simp)⟩
    | cons _ _ => exact absurd h (by simp [loopE])
  | succ fuel ih =>
    intro queue visited es h
    cases queue with
    | nil =>
      have hes : es = [] := (Option.some_inj.mp h).symm
      subst hes
      exact ⟨fun l hl => absurd hl (by simp), fun e he => absurd he (by simp)⟩
    | cons link rest =>
      by_cases hv : canonicalName link ∈ visited
      · rw [loopE_visited hv] at h
        obtain ⟨h1, h2⟩ := ih rest visited es h
        refine ⟨?_, h2⟩
        intro l hl hg
        rcases List.mem_cons.mp hl with rfl | hl2
        · exact Or.inr hv
        · exact h1 l hl2 hg
      · cases hres : resolve fs base link (canonicalName link) with
        | none =>
          rw [loopE_unresolved hv hres] at h
          obtain ⟨h1, h2⟩ := ih rest visited es h
          refine ⟨?_, h2⟩
          intro l hl hg
          rcases List.mem_cons.mp hl with rfl | hl2
          · obtain ⟨found, content, hres2, _⟩ := hg
            rw [hres] at hres2
            exact absurd hres2 (by simp)
          · exact h1 l hl2 hg
        | some found =>
          cases hread : fs.read found with
          | none =>
            rw [loopE_readfail hv hres hread] at h
            obtain ⟨h1, h2⟩ := ih rest visited es h
            refine ⟨?_, h2⟩
            intro l hl hg
            rcases List.mem_cons.mp hl with rfl | hl2
            · obtain ⟨found2, content2, hres2, hread2⟩ := hg
              rw [hres] at hres2
              have hf : found = found2 := Option.some_inj.mp hres2
              rw [← hf] at hread2
              rw [hread] at hread2
              exact absurd hread2 (by simp)
            · exact h1 l hl2 hg
          | some content =>
            rw [loopE_success hv hres hread] at h
            cases hE : loopE fs base fuel (rest ++ findLinks content)
                (canonicalName link :: visited) with
            | none => rw [hE] at h; exact absurd h (by simp)
            | some es2 =>
              rw [hE] at h
              have hes : es = ⟨canonicalName link, found, content⟩ :: es2 :=
                (Option.some_inj.mp h).symm
              subst hes
              obtain ⟨ih1, ih2⟩ := ih _ _ _ hE
              have lift : ∀ m, m ∈ es2.map Entry.name ∨ m ∈ canonicalName link :: visited →
                  m ∈ (⟨canonicalName link, found, content⟩ :: es2 :
                    List Entry).map Entry.name ∨ m ∈ visited := by
                intro m hm
                simp only [List.map_cons]
                rcases hm with h1 | h2
                · exact Or.inl (List.mem_cons_of_mem _ h1)
                · rcases List.mem_cons.mp h2 with rfl | h3
                  · exact Or.inl (List.mem_cons_self _ _)
                  · exact Or.inr h3
              constructor
              · intro l hl hg
                rcases List.mem_cons.mp hl with rfl | hl2
                · simp only [List.map_cons]
                  exact Or.inl (List.mem_cons_self _ _)
                · exact lift _ (ih1 l (List.mem_append_left _ hl2) hg)
              · intro e he l2 hl2 hg
                rcases List.mem_cons.mp he with rfl | he2
                · exact lift _ (ih1 l2 (List.mem_append_right _ hl2) hg)
                · exact lift _ (ih2 e he2 l2 hl2 hg)

/-- With no existing fallback paths, resolution depends only on the
canonical name. -/
theorem resolve_paths_nil (fs : FS) (hp : fs.paths = [])
    (base link name : String) :
    resolve fs base link name = findInWalk fs.walk name := by
  unfold resolve
  cases h : findInWalk fs.walk name with
  | some p => rfl
  | none =>
    rw [hp]
    simp

/-! ### The claims -/

/-- Claim C1: the aggregate corpus contains at most one entry per canonical
document name no matter how many links refer to it, and (when resolution is
a function of the canonical name, so that the link graph is well defined)
the aggregated names are exactly the canonical names of the reachable links
whose resolution and read succeed — one entry per reachable, resolvable
document. -/
theorem spec_c1 (fs : FS) (master : String) (es : List Entry)
    (hes : entriesOf fs master = some es)
    (hfun : ∀ l l2, canonicalName l = canonicalName l2 →
      resolve fs (dirname master) l (canonicalName l)
        = resolve fs (dirname master) l2 (canonicalName l2)) :
    parse_obsidian_vault fs master = some (corpusOf es) ∧
    (es.map Entry.name).Nodup ∧
    (∀ n, n ∈ es.map Entry.name ↔
      ∃ l, Reach fs (dirname master) master l ∧ goodLink fs (dirname master) l ∧
        canonicalName l = n) := by
  have hE : loopE fs (dirname master) (fuelMeasure fs [master] []) [master] []
      = some es := hes
  have hq0 : ∀ l ∈ [master], Reach fs (dirname master) master l := by
    intro l hl
    have hl2 : l = master := List.mem_singleton.mp hl
    subst hl2
    exact Reach.root
  have hsound := loopE_sound fs (dirname master) master _ _ _ _ hq0 hE
  have hcomp := loopE_complete fs (dirname master) _ _ _ _ hE
  refine ⟨parse_eq_corpus hes, (loopE_nodup fs (dirname master) _ _ _ _ hE).1, ?_⟩
  intro n
  constructor
  · intro hn
    obtain ⟨e, he, hname⟩ := List.mem_map.mp hn
    obtain ⟨l, hR, hcn, hres, hread⟩ := hsound e he
    exact ⟨l, hR, ⟨e.found, e.content, hres, hread⟩, by rw [hcn, hname]⟩
  · rintro ⟨l, hR, hG, rfl⟩
    have aux : ∀ l2, Reach fs (dirname master) master l2 →
        goodLink fs (dirname master) l2 →
        canonicalName l2 ∈ es.map Entry.name := by
      intro l2 hR2
      induction hR2 with
      | root =>
        intro hg
        rcases hcomp.1 master (List.mem_singleton_self _) hg with h1 | h1
        · exact h1
        · exact absurd h1 (by simp)
      | step hR3 hres3 hread3 hmem3 ih3 =>
        rename_i l3 found3 content3 l4
        intro hg4
        have hg3 : goodLink fs (dirname master) l3 :=
          ⟨found3, content3, hres3, hread3⟩
        obtain ⟨e, he, hename⟩ := List.mem_map.mp (ih3 hg3)
        obtain ⟨l5, hR5, hcn5, hres5, hread5⟩ := hsound e he
        have hcneq : canonicalName l5 = canonicalName l3 := by rw [hcn5, hename]
        have hre : resolve fs (dirname master) l5 (canonicalName l5)
            = resolve fs (dirname master) l3 (canonicalName l3) := hfun _ _ hcneq
        rw [hres5, hres3] at hre
        have hfound : e.found = found3 := Option.some_inj.mp hre
        rw [hfound, hread3] at hread5
        have hc : content3 = e.content := Option.some_inj.mp hread5
        have hl4 : l4 ∈ findLinks e.content := by
          rw [← hc]
          exact hmem3
        rcases hcomp.2 e he l4 hl4 hg4 with h2 | h2
        · exact h2
        · exact absurd h2 (by simp)
    exact aux l hR hG

/-- Witness for C1 on the diamond vault: R links A and B, both of which
link C; C is aggregated exactly once, and the hypotheses of `spec_c1` hold
because the vault has no fallback paths. -/
theorem spec_c1_witness :
    entriesOf fsD "v/R.md" = some esD ∧
    (esD.map Entry.name).Nodup ∧
    parse_obsidian_vault fsD "v/R.md" = some (corpusOf esD) := by
  have hfun : ∀ l l2, canonicalName l = canonicalName l2 →
      resolve fsD (dirname "v/R.md") l (canonicalName l)
        = resolve fsD (dirname "v/R.md") l2 (canonicalName l2) := by
    intro l l2 h
    rw [resolve_paths_nil fsD rfl, resolve_paths_nil fsD rfl, h]
  have h := spec_c1 fsD "v/R.md" esD rfl hfun
  exact ⟨rfl, h.2.1, h.1⟩

/-- Claim C2: the traversal terminates on every vault, cyclic link graphs
included — the fuelled loop always completes (it ends exactly when the
queue empties) — and the two-note cycle visits each document exactly once,
the same visit list as its acyclic counterpart. -/
theorem spec_c2 :
    (∀ (fs : FS) (master : String), ∃ s, parse_obsidian_vault fs master = some s) ∧
    parse_obsidian_vault fsCyc "v/A.md"
      = some "\n\n--- NOTE: A.md ---\n\nalpha [[B]]\n\n--- NOTE: B.md ---\n\nbeta [[A]]" ∧
    (entriesOf fsCyc "v/A.md").map (fun es => es.map Entry.name)
      = some ["A.md", "B.md"] ∧
    (entriesOf fsAcyc "v/A.md").map (fun es => es.map Entry.name)
      = some ["A.md", "B.md"] := by
  refine ⟨?_, rfl, rfl, rfl⟩
  intro fs master
  have h := entriesOf_isSome fs master
  cases hE : entriesOf fs master with
  | none => rw [hE] at h; exact absurd h (by simp)
  | some es => exact ⟨corpusOf es, parse_eq_corpus hE⟩

/-- Claim C3: the traversal is breadth-first and first-in-first-out — the
head of the queue is popped and a successful read appends the content's
links, in order of appearance, to the back — and on the spec's worked
example the corpus holds exactly three header blocks in the order root,
Skills, Projects. -/
theorem spec_c3 :
    (∀ (fs : FS) (base : String) (fuel : Nat) (link : String)
        (queue visited : List String) (acc found content : String),
      canonicalName link ∉ visited →
      resolve fs base link (canonicalName link) = some found →
      fs.read found = some content →
      loop fs base (fuel + 1) (link :: queue) visited acc
        = loop fs base fuel (queue ++ findLinks content)
            (canonicalName link :: visited) (acc ++ header found ++ content)) ∧
    parse_obsidian_vault fs3 "vault/root.md"
      = some "\n\n--- NOTE: root.md ---\n\nPortfolio. [[Skills]] [[Projects]]\n\n--- NOTE: Skills.md ---\n\nSkill list.\n\n--- NOTE: Projects.md ---\n\nProject list." :=
  ⟨fun _ _ _ _ _ _ _ _ _ hv hres hread => loop_success hv hres hread, rfl⟩

/-- Witness for C3: one successful step on the example vault pops Skills
from the front and continues with its links appended at the back. -/
theorem spec_c3_witness :
    canonicalName "Skills" ∉ ["root.md"] ∧
    loop fs3 "vault" 1 ["Skills"] ["root.md"] "x"
      = loop fs3 "vault" 0 ([] ++ findLinks "Skill list.")
          (canonicalName "Skills" :: ["root.md"])
          ("x" ++ header "vault/Skills.md" ++ "Skill list.") :=
  ⟨by decide,
   spec_c3.1 fs3 "vault" 0 "Skills" [] ["root.md"] "x" "vault/Skills.md"
     "Skill list." (by decide) rfl rfl⟩

/-- Claim C4 counterexample: a link identifier that already ends in ".md"
is not used as-is as the canonical name; the code takes its basename, so
"a/b.md" normalizes to "b.md". -/
theorem spec_c4_counterexample :
    canonicalName "a/b.md" ≠ "a/b.md" ∧ canonicalName "a/b.md" = "b.md" :=
  ⟨by decide, by decide⟩

/-- Claim C4 as amended: normalization takes the basename of the popped
identifier, used as-is when it already ends with ".md" and with ".md"
appended otherwise; the canonical name therefore always ends with ".md". -/
theorem spec_c4 (link : String) :
    canonicalName link
      = (if endsWithMd link then basename link else basename link ++ ".md") ∧
    endsWithMd (canonicalName link) = true := by
  refine ⟨rfl, ?_⟩
  unfold canonicalName
  by_cases h : endsWithMd link
  · rw [if_pos h]
    exact endsWithMd_basename_of h
  · rw [if_neg h]
    exact endsWithMd_append_md _

/-- Claim C5: resolution searches the walk listing first, the first
directory in walk order containing the canonical name wins, and only when
no listed directory contains the name does it fall back to the original
identifier joined to the base directory (with ".md" appended when the
joined path lacks it), requiring that path to exist. -/
theorem spec_c5 (fs : FS) (base link name : String) :
    (∀ pre r fls post, fs.walk = pre ++ (r, fls) :: post →
        (∀ rf ∈ pre, name ∉ rf.2) → name ∈ fls →
        resolve fs base link name = some (pathJoin r name)) ∧
    ((∀ rf ∈ fs.walk, name ∉ rf.2) →
      resolve fs base link name
        = (if potentialPath base link ∈ fs.paths
           then some (potentialPath base link) else none)) := by
  constructor
  · intro pre r fls post hw hpre hmem
    unfold resolve
    rw [hw, findInWalk_first post hpre hmem]
  · intro hnone
    unfold resolve
    rw [findInWalk_none_of hnone]

/-- Witness for C5: in `fs5` the name "n.md" is matched by the first of the
two directories carrying it, and the unmatched name "zzz.md" falls back to
the existing path built from the identifier "zzz". -/
theorem spec_c5_witness :
    resolve fs5 "v" "n" "n.md" = some (pathJoin "v/a" "n.md") ∧
    resolve fs5 "v" "zzz" "zzz.md" = some (potentialPath "v" "zzz") := by
  constructor
  · exact (spec_c5 fs5 "v" "n" "n.md").1 [("v", ["x.md"])] "v/a" ["n.md"]
      [("v/b", ["n.md"])] rfl (by decide) (by decide)
  · have h := (spec_c5 fs5 "v" "zzz" "zzz.md").2 (by decide)
    rw [h]
    decide

/-- Claim C6: a failed resolution only emits a warning — the loop continues
with the rest of the queue and the unchanged visited set, accumulator and
corpus — and a root whose only link is unresolvable still contributes its
own content, as the concrete vault with the dangling `[[Missing]]` link
shows. -/
theorem spec_c6 :
    (∀ (fs : FS) (base : String) (fuel : Nat) (link : String)
        (queue visited : List String) (acc : String),
      canonicalName link ∉ visited →
      resolve fs base link (canonicalName link) = none →
      loop fs base (fuel + 1) (link :: queue) visited acc
        = loop fs base fuel queue visited acc) ∧
    parse_obsidian_vault fs6 "v/root.md"
      = some "\n\n--- NOTE: root.md ---\n\nhello [[Missing]]" :=
  ⟨fun _ _ _ _ _ _ _ hv hres => loop_unresolved hv hres, rfl⟩

/-- Witness for C6: the unresolvable link Missing is dropped and the step
leaves queue remainder, visited set and accumulator unchanged. -/
theorem spec_c6_witness :
    canonicalName "Missing" ∉ ["root.md"] ∧
    loop fs6 "v" 1 ["Missing"] ["root.md"] "y"
      = loop fs6 "v" 0 [] ["root.md"] "y" :=
  ⟨by decide, spec_c6.1 fs6 "v" 0 "Missing" [] ["root.md"] "y" (by decide) rfl⟩

/-- Claim C7: when a resolved document's read fails the loop continues with
the rest of the queue and nothing else changes — nothing is appended to the
corpus, the canonical name is not added to the visited set and no links are
enqueued — and a vault whose only document is unreadable yields an empty
corpus. -/
theorem spec_c7 :
    (∀ (fs : FS) (base : String) (fuel : Nat) (link : String)
        (queue visited : List String) (acc found : String),
      canonicalName link ∉ visited →
      resolve fs base link (canonicalName link) = some found →
      fs.read found = none →
      loop fs base (fuel + 1) (link :: queue) visited acc
        = loop fs base fuel queue visited acc) ∧
    parse_obsidian_vault fs7 "v/Bad.md" = some "" :=
  ⟨fun _ _ _ _ _ _ _ _ hv hres hread => loop_readfail hv hres hread, rfl⟩

/-- Witness for C7: the unreadable Bad.md resolves but its read fails, and
the step drops it while leaving the traversal state otherwise unchanged. -/
theorem spec_c7_witness :
    canonicalName "Bad" ∉ ([] : List String) ∧
    resolve fs7 "v" "Bad" (canonicalName "Bad") = some "v/Bad.md" ∧
    fs7.read "v/Bad.md" = none ∧
    loop fs7 "v" 3 ["Bad", "Q"] [] "z" = loop fs7 "v" 2 ["Q"] [] "z" :=
  ⟨by decide, rfl, rfl,
   spec_c7.1 fs7 "v" 2 "Bad" ["Q"] [] "z" "v/Bad.md" (by decide) rfl rfl⟩

/-- Claim C8: a run whose aggregate corpus is empty is fatal — `main`
reports the parse failure and returns without reading the job description,
calling the API or writing the output file. -/
theorem spec_c8 (fs : FS) (master : String) (env : MainEnv)
    (h : parse_obsidian_vault fs master = some "") :
    mainModel fs master env = [MainAction.reportParseFailure] ∧
    MainAction.readJobDescription ∉ mainModel fs master env ∧
    MainAction.callApi ∉ mainModel fs master env ∧
    MainAction.writeOutput ∉ mainModel fs master env := by
  have hm : mainModel fs master env = [MainAction.reportParseFailure] := by
    unfold mainModel
    rw [h]
    simp
  refine ⟨hm, ?_, ?_, ?_⟩ <;> rw [hm] <;> simp

/-- Witness for C8 on the empty vault: the master path resolves nowhere, the
corpus is empty, and the run only reports the failure. -/
theorem spec_c8_witness :
    parse_obsidian_vault fs8 "x" = some "" ∧
    mainModel fs8 "x" ⟨some "jd", .transportError "m", true⟩
      = [MainAction.reportParseFailure] :=
  ⟨rfl, (spec_c8 fs8 "x" ⟨some "jd", .transportError "m", true⟩ rfl).1⟩

/-- Claim C9: `generate_resume_suggestions` never raises — a transport
failure, an error status (for which `raise_for_status` raises, caught by
the handler) and a response without the expected candidate structure all
produce a descriptive error string as the returned result; a well-formed
response returns the first candidate's text value; and the result depends
only on the one attempt made, there being no retry. -/
theorem spec_c9 :
    (∀ m, generate_resume_suggestions (.transportError m) = .str (reqErr m)) ∧
    (∀ status t body, 400 ≤ status → status < 600 →
      generate_resume_suggestions (.response status t body) = .str (reqErr t)) ∧
    (∀ status t result, status < 400 → extractText result = .fallthrough →
      generate_resume_suggestions (.response status t (.ok result))
        = .str (cannotExtract result)) ∧
    (∀ status t result v, status < 400 → extractText result = .success v →
      generate_resume_suggestions (.response status t (.ok result)) = v) ∧
    (∀ f g : Nat → PostResult, f 0 = g 0 →
      generateFromAttempts f = generateFromAttempts g) := by
  refine ⟨fun m => rfl, ?_, ?_, ?_, ?_⟩
  · intro status t body h1 h2
    simp only [generate_resume_suggestions]
    rw [if_pos ⟨h1, h2⟩]
  · intro status t result h1 hx
    simp only [generate_resume_suggestions]
    rw [if_neg (fun hc => absurd hc.1 (by omega))]
    simp only [hx]
  · intro status t result v h1 hx
    simp only [generate_resume_suggestions]
    rw [if_neg (fun hc => absurd hc.1 (by omega))]
    simp only [hx]
  · intro f g h
    unfold generateFromAttempts
    rw [h]

/-- Witness for C9: an HTTP 500 yields the request-error string, a timeout
yields it too, an empty object yields the could-not-extract string with the
dumped body, the well-formed body yields its text, and a second would-be
attempt outcome never matters. -/
theorem spec_c9_witness :
    generate_resume_suggestions (.response 500 "500 Server Error" (.ok .null))
      = .str (reqErr "500 Server Error") ∧
    generate_resume_suggestions (.transportError "timed out")
      = .str (reqErr "timed out") ∧
    generate_resume_suggestions (.response 200 "OK" (.ok (Json.obj [])))
      = .str (cannotExtract (Json.obj [])) ∧
    generate_resume_suggestions (.response 200 "OK" (.ok okBody)) = .str "TEXT" ∧
    generateFromAttempts (fun _ => .transportError "x")
      = generateFromAttempts
          (fun n => if n = 0 then .transportError "x"
                    else .response 200 "OK" (.ok .null)) :=
  ⟨spec_c9.2.1 500 "500 Server Error" (.ok .null) (by decide) (by decide),
   spec_c9.1 "timed out",
   spec_c9.2.2.1 200 "OK" (Json.obj []) (by decide) rfl,
   spec_c9.2.2.2.1 200 "OK" okBody (.str "TEXT") (by decide) rfl,
   spec_c9.2.2.2.2 _ _ rfl⟩

/-- Claim C10: the root's given path is not opened directly — it is seeded
into the queue and resolved by the same canonical-name search as any link,
so in `fs10` (master path "vault/root") the content attributed to the root
is read from the walk match "vault/notes/root.md" rather than from the
readable file at the given path. -/
theorem spec_c10 :
    parse_obsidian_vault fs10 "vault/root"
      = some "\n\n--- NOTE: root.md ---\n\nSHADOW" ∧
    fs10.read "vault/root" = some "ORIGINAL" :=
  ⟨rfl, rfl⟩

end ResumeBuilder
